import Mathlib

/-!
Shallow embedding of the vocabcard plugin core
(`progress_manager.py`, `main.py`, `actions.py`) and verification of its
specification claims.

Python strings are modelled as Lean `String`s, manipulated through their
underlying `List Char` so that every definition evaluates by kernel
reduction.  Python dicts whose iteration order matters (`progress["users"]`)
are modelled as insertion-ordered association lists.  Randomness
(`random.choice`, `random.sample`) is modelled by explicit index
parameters.  The clock (`get_beijing_time`) is passed in as an explicit
`today` string / `Instant` value.
-/

namespace VocabCard

/-! ### Python string primitives -/

/-- Ascending comparison of two Python strings (as char lists) by Unicode
code point, the order used by `list.sort()` on `str`. -/
def strLe : List Char → List Char → Bool
  | [], _ => true
  | _ :: _, [] => false
  | c :: cs, d :: ds =>
    if c.toNat = d.toNat then strLe cs ds
    else decide (c.toNat < d.toNat)

/-- Insert a string into an already-sorted list of strings. -/
def insertSorted (x : String) : List String → List String
  | [] => [x]
  | y :: ys => if strLe x.data y.data then x :: y :: ys else y :: insertSorted x ys

/-- Python's `list.sort()` on a list of strings (ascending code-point
order).  On strings the sorted list is uniquely determined by the multiset
of elements, so insertion sort computes the same result as Python's
stable sort. -/
def pysort : List String → List String
  | [] => []
  | x :: xs => insertSorted x (pysort xs)

/-- Python's `str.split(sep)` for a one-character separator, on char
lists.  `''.split(':') == ['']`. -/
def pySplit (sep : Char) : List Char → List (List Char)
  | [] => [[]]
  | c :: cs =>
    let r := pySplit sep cs
    if c = sep then [] :: r
    else
      match r with
      | [] => [[c]]
      | p :: ps => (c :: p) :: ps

/-- Leading/trailing-whitespace strip performed by Python's `int(str)`. -/
def pyStrip (cs : List Char) : List Char :=
  ((cs.dropWhile Char.isWhitespace).reverse.dropWhile Char.isWhitespace).reverse

/-- Tail of a digit run accepted by Python's `int(str)`: digits with
single underscores strictly between digits. -/
def validDigitTail : List Char → Bool
  | [] => true
  | c :: rest =>
    if c = '_' then
      match rest with
      | [] => false
      | d :: _ => d.isDigit && validDigitTail rest
    else c.isDigit && validDigitTail rest

/-- A nonempty digit run (underscores allowed between digits). -/
def validDigitRun : List Char → Bool
  | [] => false
  | c :: rest => c.isDigit && validDigitTail rest

/-- Numeric value of a digit run (underscores already removed). -/
def digitsVal (cs : List Char) : Nat :=
  cs.foldl (fun acc c => acc * 10 + (c.toNat - 48)) 0

/-- Python's `int(str)`: strip whitespace, optional sign, digit run with
optional underscores between digits; `none` models a raised `ValueError`. -/
def pyInt (s : String) : Option Int :=
  let t := pyStrip s.data
  match t with
  | '+' :: rest =>
    if validDigitRun rest then some (digitsVal (rest.filter fun c => c ≠ '_')) else none
  | '-' :: rest =>
    if validDigitRun rest then some (-(digitsVal (rest.filter fun c => c ≠ '_') : Int)) else none
  | l =>
    if validDigitRun l then some (digitsVal (l.filter fun c => c ≠ '_')) else none

/-! ### Data model (`progress_manager.py`) -/

/-- A corpus entry (`words.json` record).  Only the `word` key is
interpreted by the core; the remaining fields are opaque display data. -/
structure WordEntry where
  word : String
  phonetic : String := ""
  pos : String := ""
  definitionCn : String := ""
  exampleSentence : String := ""
deriving DecidableEq, Repr

/-- One timeline's progress record.  `lastDate` models `last_push_date`
for the global timeline and `last_seen_date` for a user timeline. -/
structure TimelineProgress where
  sentWords : List String
  lastDate : String
deriving DecidableEq, Repr

/-- The persisted root object (`progress.json`).  `users` is Python's
insertion-ordered dict, modelled as an association list with unique keys. -/
structure ProgressStore where
  globalTL : TimelineProgress
  users : List (String × TimelineProgress)
deriving DecidableEq, Repr

/-- `ProgressManager` state: the corpus (`self.words`), the in-memory
progress (`self.progress`) and the last successfully written file content
(`none` = no file on disk yet). -/
structure PMState where
  words : List WordEntry
  progress : ProgressStore
  disk : Option ProgressStore
deriving DecidableEq, Repr

/-- `self.word_set`: the corpus word keys (as a list; used for membership). -/
def wordKeys (words : List WordEntry) : List String :=
  words.map (fun w => w.word)

/-- `self.word_map[k]`: dict comprehension `{w['word']: w for w in words}`,
so the last entry with a given key wins. -/
def wordMapFind (words : List WordEntry) (k : String) : Option WordEntry :=
  (words.filter fun w => w.word = k).getLast?

/-- `_get_default_progress`. -/
def defaultProgress : ProgressStore :=
  ⟨⟨[], ""⟩, []⟩

/-- A fresh manager over `words` with no progress file on disk. -/
def initState (words : List WordEntry) : PMState :=
  ⟨words, defaultProgress, none⟩

/-- First-match lookup in the users dict. -/
def findUser : List (String × TimelineProgress) → String → Option TimelineProgress
  | [], _ => none
  | (k, tp) :: rest, u => if k = u then some tp else findUser rest u

/-- Dict assignment `users[u] = tp`: replace in place, or append (Python
dicts keep insertion order). -/
def setUser : List (String × TimelineProgress) → String → TimelineProgress →
    List (String × TimelineProgress)
  | [], u, tp => [(u, tp)]
  | (k, old) :: rest, u, tp =>
    if k = u then (u, tp) :: rest else (k, old) :: setUser rest u tp

/-- `_get_user_progress`: return the existing record or create an empty
one (a mutation of the in-memory store). -/
def getUserProgress (st : PMState) (u : String) : TimelineProgress × PMState :=
  match findUser st.progress.users u with
  | some tp => (tp, st)
  | none =>
    (⟨[], ""⟩,
      { st with progress :=
        { st.progress with users := st.progress.users ++ [(u, ⟨[], ""⟩)] } })

/-- The in-memory sort `_save_progress` applies to one user record. -/
def sortTL (tp : TimelineProgress) : TimelineProgress :=
  { tp with sentWords := pysort tp.sentWords }

/-- `_save_progress`'s pre-write normalisation: sort every user's
`sent_words` in place.  The global list is not touched. -/
def sortUsers (p : ProgressStore) : ProgressStore :=
  { p with users := p.users.map fun kv => (kv.1, sortTL kv.2) }

/-- `_save_progress()`: sort the users' lists in memory, then write the
whole structure to disk. -/
def saveProgress (st : PMState) : PMState :=
  let p := sortUsers st.progress
  { st with progress := p, disk := some p }

/-- Python truthiness of the `user_id` argument (`if user_id:`):
`None` and the empty string select the global branch. -/
def isUserId : Option String → Bool
  | none => false
  | some s => decide (s ≠ "")

/-- The `sent_words` list of the timeline the code would operate on
(a missing user reads as empty, as `_get_user_progress` creates it empty). -/
def sentWordsOf (st : PMState) (tl : Option String) : List String :=
  match tl with
  | none => st.progress.globalTL.sentWords
  | some u =>
    if u = "" then st.progress.globalTL.sentWords
    else ((findUser st.progress.users u).map fun tp => tp.sentWords).getD []

/-- `available_words = [w for w in self.words if w["word"] not in sent_words]`. -/
def availableWords (st : PMState) (tl : Option String) : List WordEntry :=
  st.words.filter fun w => !(decide (w.word ∈ sentWordsOf st tl))

/-- The wraparound reset inside `select_word`: set the addressed
timeline's `sent_words` to `[]` (the user entry exists at this point). -/
def clearUser : List (String × TimelineProgress) → String → List (String × TimelineProgress)
  | [], _ => []
  | (k, tp) :: rest, u =>
    if k = u then (k, { tp with sentWords := [] }) :: rest
    else (k, tp) :: clearUser rest u

/-- Clear the addressed timeline's `sent_words` (lines 98-101). -/
def clearSentWords (st : PMState) (tl : Option String) : PMState :=
  match tl with
  | none =>
    { st with progress :=
      { st.progress with globalTL := { st.progress.globalTL with sentWords := [] } } }
  | some u =>
    if u = "" then
      { st with progress :=
        { st.progress with globalTL := { st.progress.globalTL with sentWords := [] } } }
    else
      { st with progress := { st.progress with users := clearUser st.progress.users u } }

/-- The progress fetch at the top of `select_word` / `get_status`: the
user branch runs `_get_user_progress` (which may create the record). -/
def fetchState (st : PMState) (tl : Option String) : PMState :=
  match tl with
  | some u => if u = "" then st else (getUserProgress st u).2
  | none => st

/-- Lines 105-111 of `select_word`: `None` on an empty pool, the first
entry in `sequential` mode, otherwise `random.choice` modelled as
`available[pick % len(available)]`. -/
def pickFrom (avail : List WordEntry) (mode : String) (pick : Nat) : Option WordEntry :=
  match avail with
  | [] => none
  | w :: rest =>
    if mode = "sequential" then some w
    else some ((w :: rest).get ⟨pick % (w :: rest).length, Nat.mod_lt _ (Nat.succ_pos _)⟩)

/-- `select_word`: compute the available pool; on exhaustion clear the
timeline, persist, and fall back to the full corpus; then pick. -/
def selectWord (st : PMState) (tl : Option String) (mode : String) (pick : Nat) :
    Option WordEntry × PMState :=
  let st1 := fetchState st tl
  if (availableWords st1 tl).isEmpty then
    let st2 := saveProgress (clearSentWords st1 tl)
    (pickFrom st2.words mode pick, st2)
  else
    (pickFrom (availableWords st1 tl) mode pick, st1)

/-- The user branch of `mark_word_sent` (word already known to be a key). -/
def markUser (st : PMState) (u w today : String) : PMState :=
  let pair := getUserProgress st u
  let tp := pair.1
  let st1 := pair.2
  let tp' : TimelineProgress :=
    ⟨if w ∈ tp.sentWords then tp.sentWords else tp.sentWords ++ [w], today⟩
  { st1 with progress := { st1.progress with users := setUser st1.progress.users u tp' } }

/-- The global branch of `mark_word_sent`. -/
def markGlobal (st : PMState) (w today : String) : PMState :=
  let g := st.progress.globalTL
  let g' : TimelineProgress :=
    ⟨if w ∈ g.sentWords then g.sentWords else g.sentWords ++ [w], today⟩
  { st with progress := { st.progress with globalTL := g' } }

/-- The timeline dispatch inside `mark_word_sent` (`if user_id:`). -/
def markDispatch (st : PMState) (w : String) (tl : Option String) (today : String) : PMState :=
  match tl with
  | some u => if u = "" then markGlobal st w today else markUser st u w today
  | none => markGlobal st w today

/-- `mark_word_sent`: no-op on foreign keys, otherwise idempotent add
plus date stamp, then a synchronous save. -/
def markWordSent (st : PMState) (w : String) (tl : Option String) (today : String) : PMState :=
  if w ∈ wordKeys st.words then saveProgress (markDispatch st w tl today)
  else st

/-- Result record of `get_status`. -/
structure StatusResult where
  kind : String
  sent : Nat
  total : Nat
  lastDate : String
deriving DecidableEq, Repr

/-- `get_status` for the global branch. -/
def globalStatus (st : PMState) : StatusResult × PMState :=
  (⟨"global", st.progress.globalTL.sentWords.length, st.words.length,
    st.progress.globalTL.lastDate⟩, st)

/-- `get_status`: note the user branch calls `_get_user_progress`, which
creates the user's record when absent. -/
def getStatus (st : PMState) (tl : Option String) : StatusResult × PMState :=
  match tl with
  | none => globalStatus st
  | some u =>
    if u = "" then globalStatus st
    else
      let pair := getUserProgress st u
      (⟨"user", pair.1.sentWords.length, st.words.length, pair.1.lastDate⟩, pair.2)

/-- The clamp `if count > len(sent_words): count = len(sent_words)`. -/
def recapCount (count n : Nat) : Nat :=
  if count > n then n else count

/-- A valid outcome of `random.sample(sent, c)` on a list of length `n`:
`c` distinct positions. -/
def IsSample (idxs : List Nat) (n c : Nat) : Prop :=
  idxs.Nodup ∧ idxs.length = c ∧ ∀ i ∈ idxs, i < n

/-- `select_recap_words`.  `idxs` are the positions drawn by
`random.sample` (which returns exactly `recapCount count |sent|` of
them); the list comprehension keeps only words still present in
`word_map`. -/
def selectRecapWords (st : PMState) (u : String) (count : Nat) (idxs : List Nat) :
    List WordEntry × PMState :=
  if (getUserProgress st u).1.sentWords.isEmpty then ([], (getUserProgress st u).2)
  else
    (((idxs.take (recapCount count (getUserProgress st u).1.sentWords.length)).filterMap
        fun i => (getUserProgress st u).1.sentWords.get? i).filterMap
      fun k => wordMapFind (getUserProgress st u).2.words k,
     (getUserProgress st u).2)

/-! ### Scheduler (`main.py`) -/

/-- `_parse_time`: split on `':'`, convert the first two parts with
`int(...)`; any exception (bad int, missing `parts[1]`) yields the
`(8, 0)` default.  No range check is performed. -/
def parseTime (s : String) : Int × Int :=
  match pySplit ':' s.data with
  | [] => (8, 0)
  | [_] => (8, 0)
  | p0 :: p1 :: _ =>
    match pyInt (String.mk p0), pyInt (String.mk p1) with
    | some a, some b => (a, b)
    | _, _ => (8, 0)

/-- A wall-clock instant: day index plus second-of-day (the scheduler
only ever compares instants, so an abstract day counter suffices). -/
structure Instant where
  day : Nat
  sec : Nat
deriving DecidableEq, Repr

/-- `datetime` comparison `a < b`. -/
def instantLt (a b : Instant) : Bool :=
  a.day < b.day || (a.day = b.day && a.sec < b.sec)

/-- Python's `min` over a nonempty list (first minimum wins). -/
def pyMinList (x : Instant) (xs : List Instant) : Instant :=
  xs.foldl (fun acc t => if instantLt t acc then t else acc) x

/-- Second-of-day of an `(hour, minute)` trigger time. -/
def triggerSec (t : Nat × Nat) : Nat :=
  (t.1 * 60 + t.2) * 60

/-- `_calculate_next_target_time`: today's generation time if generation
has not happened and it is still in the future, today's push time if
still in the future, else tomorrow's generation time; return the
earliest collected target. -/
def calculateNextTargetTime (todayGenerated : Bool) (now : Instant)
    (genTime pushTime : Nat × Nat) : Option Instant :=
  let genDT : Instant := ⟨now.day, triggerSec genTime⟩
  let pushDT : Instant := ⟨now.day, triggerSec pushTime⟩
  let targets1 := if !todayGenerated && instantLt now genDT then [genDT] else []
  let targets2 := targets1 ++ (if instantLt now pushDT then [pushDT] else [])
  let targets3 :=
    if targets2.isEmpty then [⟨now.day + 1, triggerSec genTime⟩] else targets2
  match targets3 with
  | [] => none
  | t :: ts => some (pyMinList t ts)

/-! ### Command handlers (`actions.py`) -/

/-- The count normalisation shared by `handle_vocab` and `handle_recap`:
`int(count_str)` with fallback 1, then `max(1, min(count, 10))`. -/
def effectiveCount (s : String) : Int :=
  let c := match pyInt s with | some n => n | none => (1 : Int)
  max 1 (min c 10)

/-- The word-collection loop of `handle_vocab`: `count` iterations of
`select_word`, keeping fresh words, stopping early on `None`.  `picks`
supplies one `random.choice` index per iteration. -/
def vocabLoop (tl : Option String) (mode : String) :
    Nat → List Nat → PMState → List WordEntry → List WordEntry × PMState
  | 0, _, st, acc => (acc, st)
  | n + 1, picks, st, acc =>
    let r := selectWord st tl mode (picks.headD 0)
    match r.1 with
    | some w =>
      vocabLoop tl mode n picks.tail r.2 (if w ∈ acc then acc else acc ++ [w])
    | none => (acc, r.2)

/-! ### Startup loading (`_load_progress`), over raw JSON values -/

/-- A parsed JSON value, as returned by `json.load`. -/
inductive JVal where
  | jnull : JVal
  | jbool : Bool → JVal
  | jnum : Int → JVal
  | jstr : String → JVal
  | jarr : List JVal → JVal
  | jobj : List (String × JVal) → JVal

/-- The uncaught exceptions `_load_progress` can raise. -/
inductive PyErr where
  | typeError : PyErr
deriving DecidableEq, Repr

/-- What reading the progress file can yield: no file, an `IOError`, a
`json.JSONDecodeError`, or a successfully parsed value. -/
inductive FileRead where
  | absent : FileRead
  | ioError : FileRead
  | parseError : FileRead
  | parsed : JVal → FileRead

/-- Python `key == v` for a JSON value `v` (a string key equals only the
same string). -/
def jvalEqStr (v : JVal) (key : String) : Bool :=
  match v with
  | .jstr s => decide (s = key)
  | _ => false

/-- Whether `key.data` occurs as a contiguous substring of `s`. -/
def charsInfix (key s : List Char) : Bool :=
  decide (key <:+: s)

/-- Python `key in data` for the payloads `_load_progress` can see:
key lookup on dicts, element equality on lists, substring test on
strings, `TypeError` on anything non-iterable. -/
def pyContains (data : JVal) (key : String) : Except PyErr Bool :=
  match data with
  | .jobj fields => .ok (fields.any fun kv => kv.1 = key)
  | .jarr xs => .ok (xs.any fun v => jvalEqStr v key)
  | .jstr s => .ok (charsInfix key.data s.data)
  | _ => .error .typeError

/-- Dict field assignment (append keeps insertion order). -/
def setField : List (String × JVal) → String → JVal → List (String × JVal)
  | [], k, v => [(k, v)]
  | (k', v') :: rest, k, v =>
    if k' = k then (k, v) :: rest else (k', v') :: setField rest k v

/-- Python `data[key] = v`: only dicts support string-item assignment. -/
def pySetItem (data : JVal) (key : String) (v : JVal) : Except PyErr JVal :=
  match data with
  | .jobj fields => .ok (.jobj (setField fields key v))
  | _ => .error .typeError

/-- The default store, as the JSON value `_get_default_progress` builds. -/
def defaultProgressJ : JVal :=
  .jobj [("global", .jobj [("sent_words", .jarr []), ("last_push_date", .jstr "")]),
         ("users", .jobj [])]

/-- The `global` sub-record `_load_progress` fills in when missing. -/
def defaultGlobalJ : JVal :=
  .jobj [("sent_words", .jarr []), ("last_push_date", .jstr "")]

/-- `_load_progress`: a missing file, an `IOError` or a JSON parse error
fall back to the default store; a parsed payload has its `global` and
`users` keys checked and filled in.  A `.error` result models an
exception raised to the caller (only `json.JSONDecodeError` and
`IOError` are caught); exceptions propagate past the remaining steps. -/
def loadProgress (f : FileRead) : Except PyErr JVal :=
  match f with
  | .absent => .ok defaultProgressJ
  | .ioError => .ok defaultProgressJ
  | .parseError => .ok defaultProgressJ
  | .parsed data =>
    match pyContains data "global" with
    | .error e => .error e
    | .ok hasG =>
      match (if hasG then .ok data else pySetItem data "global" defaultGlobalJ :
          Except PyErr JVal) with
      | .error e => .error e
      | .ok data1 =>
        match pyContains data1 "users" with
        | .error e => .error e
        | .ok hasU =>
          if hasU then .ok data1 else pySetItem data1 "users" (.jobj [])

/-! ### Derived notions used by the claims -/

/-- One `select_word`/`mark_word_sent` call addressed to a fixed
timeline.  `select` carries the mode and the `random.choice` index;
`mark` carries the word and the current date string. -/
inductive TimelineOp where
  | select (mode : String) (pick : Nat) : TimelineOp
  | mark (w : String) (today : String) : TimelineOp

/-- Apply one operation to the manager state. -/
def applyTimelineOp (tl : Option String) (st : PMState) : TimelineOp → PMState
  | .select mode pick => (selectWord st tl mode pick).2
  | .mark w today => markWordSent st w tl today

/-- Run a sequence of operations addressed to timeline `tl`. -/
def runOps (tl : Option String) : List TimelineOp → PMState → PMState
  | [], st => st
  | op :: ops, st => runOps tl ops (applyTimelineOp tl st op)

/-- The invariant of claim C2: a timeline's `sent_words` is a
duplicate-free list of corpus keys. -/
def SentInv (words : List WordEntry) (sent : List String) : Prop :=
  sent.Nodup ∧ ∀ w ∈ sent, w ∈ wordKeys words

/-- The order `list.sort()` establishes, on Lean strings. -/
def strLeS (x y : String) : Prop :=
  strLe x.data y.data = true

instance : DecidableRel strLeS := fun a b => by
  unfold strLeS
  infer_instance

/-- "Sorted ascending" in the sense of Python's `list.sort()`. -/
def SortedAsc (l : List String) : Prop :=
  l.Pairwise strLeS

instance (l : List String) : Decidable (SortedAsc l) := by
  unfold SortedAsc
  infer_instance

/-- A user's record as stored in the users dict. -/
def userView (st : PMState) (u : String) : Option TimelineProgress :=
  findUser st.progress.users u

/-- Two optional timeline records that agree as *sets*: same `sentWords`
membership and same date (list order may differ). -/
def tlSetEq : Option TimelineProgress → Option TimelineProgress → Prop
  | none, none => True
  | some tp, some tp' => (∀ x, x ∈ tp.sentWords ↔ x ∈ tp'.sentWords) ∧ tp.lastDate = tp'.lastDate
  | _, _ => False

/-- Rendering of the claim wording "well-formed HH:MM time of day"
(two digit fields, hour 0-23, minute 0-59), used to compare `parseTime`
against the specification. -/
def wellFormedHHMM (s : String) : Bool :=
  match pySplit ':' s.data with
  | [h, m] =>
    decide (1 ≤ h.length) && decide (h.length ≤ 2) && h.all Char.isDigit &&
    decide (1 ≤ m.length) && decide (m.length ≤ 2) && m.all Char.isDigit &&
    decide (digitsVal h < 24) && decide (digitsVal m < 60)
  | _ => false

/-! ### Lemmas about the Python string sort -/

theorem strLe_cons_cons (c d : Char) (cs ds : List Char) :
    strLe (c :: cs) (d :: ds) =
      if c.toNat = d.toNat then strLe cs ds else decide (c.toNat < d.toNat) := rfl

theorem strLe_total (a b : List Char) : strLe a b = true ∨ strLe b a = true := by
  induction a generalizing b with
  | nil => exact Or.inl rfl
  | cons c cs ih =>
    cases b with
    | nil => exact Or.inr rfl
    | cons d ds =>
      rw [strLe_cons_cons, strLe_cons_cons]
      by_cases h : c.toNat = d.toNat
      · rw [if_pos h, if_pos h.symm]
        exact ih ds
      · have h' : ¬d.toNat = c.toNat := fun hh => h hh.symm
        rw [if_neg h, if_neg h']
        rcases Nat.lt_or_ge c.toNat d.toNat with hlt | hge
        · exact Or.inl (by simpa using hlt)
        · have : d.toNat < c.toNat := lt_of_le_of_ne hge h'
          exact Or.inr (by simpa using this)

theorem strLe_trans (a b c : List Char) (hab : strLe a b = true) (hbc : strLe b c = true) :
    strLe a c = true := by
  induction a generalizing b c with
  | nil => rfl
  | cons x xs ih =>
    cases b with
    | nil => simp [strLe] at hab
    | cons y ys =>
      cases c with
      | nil => simp [strLe] at hbc
      | cons z zs =>
        rw [strLe_cons_cons] at hab hbc ⊢
        by_cases hxy : x.toNat = y.toNat
        · rw [if_pos hxy] at hab
          by_cases hyz : y.toNat = z.toNat
          · rw [if_pos hyz] at hbc
            rw [if_pos (hxy.trans hyz)]
            exact ih ys zs hab hbc
          · rw [if_neg hyz] at hbc
            have hlt : y.toNat < z.toNat := by simpa using hbc
            have hxz : x.toNat < z.toNat := hxy ▸ hlt
            rw [if_neg (Nat.ne_of_lt hxz)]
            simpa using hxz
        · rw [if_neg hxy] at hab
          have hlt : x.toNat < y.toNat := by simpa using hab
          by_cases hyz : y.toNat = z.toNat
          · have hxz : x.toNat < z.toNat := hyz ▸ hlt
            rw [if_neg (Nat.ne_of_lt hxz)]
            simpa using hxz
          · rw [if_neg hyz] at hbc
            have hlt' : y.toNat < z.toNat := by simpa using hbc
            have hxz : x.toNat < z.toNat := hlt.trans hlt'
            rw [if_neg (Nat.ne_of_lt hxz)]
            simpa using hxz

theorem insertSorted_cons (x y : String) (ys : List String) :
    insertSorted x (y :: ys) =
      if strLe x.data y.data then x :: y :: ys else y :: insertSorted x ys := rfl

theorem insertSorted_perm (x : String) (l : List String) :
    List.Perm (insertSorted x l) (x :: l) := by
  induction l with
  | nil => exact List.Perm.refl _
  | cons y ys ih =>
    rw [insertSorted_cons]
    by_cases h : strLe x.data y.data = true
    · rw [if_pos h]
    · rw [if_neg h]
      exact (List.Perm.cons y ih).trans (List.Perm.swap x y ys)

theorem pysort_perm (l : List String) : List.Perm (pysort l) l := by
  induction l with
  | nil => exact List.Perm.refl _
  | cons x xs ih => exact (insertSorted_perm x (pysort xs)).trans (List.Perm.cons x ih)

theorem mem_pysort {a : String} {l : List String} : a ∈ pysort l ↔ a ∈ l :=
  (pysort_perm l).mem_iff

theorem nodup_pysort {l : List String} (h : l.Nodup) : (pysort l).Nodup :=
  (pysort_perm l).nodup_iff.mpr h

theorem length_pysort (l : List String) : (pysort l).length = l.length :=
  (pysort_perm l).length_eq

theorem pysort_nil : pysort [] = [] := rfl

theorem mem_insertSorted {a x : String} {l : List String} :
    a ∈ insertSorted x l ↔ a = x ∨ a ∈ l := by
  rw [(insertSorted_perm x l).mem_iff, List.mem_cons]

theorem sortedAsc_insertSorted (x : String) {l : List String} (h : SortedAsc l) :
    SortedAsc (insertSorted x l) := by
  induction l with
  | nil => simp [insertSorted, SortedAsc]
  | cons y ys ih =>
    rw [SortedAsc, List.pairwise_cons] at h
    obtain ⟨hy, hys⟩ := h
    rw [insertSorted_cons]
    by_cases hxy : strLe x.data y.data = true
    · rw [if_pos hxy, SortedAsc, List.pairwise_cons]
      refine ⟨?_, List.pairwise_cons.mpr ⟨hy, hys⟩⟩
      intro b hb
      rcases List.mem_cons.mp hb with rfl | hb
      · exact hxy
      · exact strLe_trans _ _ _ hxy (hy b hb)
    · rw [if_neg hxy, SortedAsc, List.pairwise_cons]
      refine ⟨?_, ih hys⟩
      intro b hb
      rcases mem_insertSorted.mp hb with rfl | hb
      · rcases strLe_total b.data y.data with hh | hh
        · exact absurd hh hxy
        · exact hh
      · exact hy b hb

theorem sortedAsc_pysort (l : List String) : SortedAsc (pysort l) := by
  induction l with
  | nil => exact List.Pairwise.nil
  | cons x xs ih => exact sortedAsc_insertSorted x ih

/-! ### Lemmas about the users dict -/

theorem findUser_append_of_none {l1 : List (String × TimelineProgress)} {u : String}
    (l2 : List (String × TimelineProgress)) (h : findUser l1 u = none) :
    findUser (l1 ++ l2) u = findUser l2 u := by
  induction l1 with
  | nil => rfl
  | cons kv rest ih =>
    obtain ⟨k, tp⟩ := kv
    by_cases hk : k = u
    · simp [findUser, hk] at h
    · simp only [List.cons_append, findUser, hk, if_neg] at h ⊢
      exact ih h

theorem findUser_append_of_some {l1 : List (String × TimelineProgress)} {u : String}
    {tp : TimelineProgress} (l2 : List (String × TimelineProgress))
    (h : findUser l1 u = some tp) : findUser (l1 ++ l2) u = some tp := by
  induction l1 with
  | nil => simp [findUser] at h
  | cons kv rest ih =>
    obtain ⟨k, tp'⟩ := kv
    by_cases hk : k = u
    · simp only [findUser, hk, if_pos] at h
      simp [List.cons_append, findUser, hk, h]
    · simp only [findUser, hk, if_neg] at h
      simp only [List.cons_append, findUser, hk, if_neg]
      exact ih h

theorem findUser_setUser_self (l : List (String × TimelineProgress)) (u : String)
    (tp : TimelineProgress) : findUser (setUser l u tp) u = some tp := by
  induction l with
  | nil => simp [setUser, findUser]
  | cons kv rest ih =>
    obtain ⟨k, old⟩ := kv
    by_cases hk : k = u
    · simp [setUser, hk, findUser]
    · simp [setUser, hk, findUser, ih]

theorem findUser_setUser_ne {v u : String} (l : List (String × TimelineProgress))
    (tp : TimelineProgress) (h : v ≠ u) :
    findUser (setUser l u tp) v = findUser l v := by
  induction l with
  | nil => simp [setUser, findUser, Ne.symm h]
  | cons kv rest ih =>
    obtain ⟨k, old⟩ := kv
    by_cases hk : k = u
    · subst hk
      simp [setUser, findUser, Ne.symm h]
    · simp [setUser, hk, findUser, ih]

theorem findUser_clearUser_self (l : List (String × TimelineProgress)) (u : String) :
    findUser (clearUser l u) u = (findUser l u).map fun tp => ⟨[], tp.lastDate⟩ := by
  induction l with
  | nil => rfl
  | cons kv rest ih =>
    obtain ⟨k, tp⟩ := kv
    by_cases hk : k = u
    · simp [clearUser, hk, findUser]
    · simp [clearUser, hk, findUser, ih]

theorem findUser_clearUser_ne {v u : String} (l : List (String × TimelineProgress))
    (h : v ≠ u) : findUser (clearUser l u) v = findUser l v := by
  induction l with
  | nil => rfl
  | cons kv rest ih =>
    obtain ⟨k, tp⟩ := kv
    by_cases hk : k = u
    · subst hk
      simp [clearUser, findUser, Ne.symm h]
    · simp [clearUser, hk, findUser, ih]

theorem findUser_map_sort (l : List (String × TimelineProgress)) (u : String) :
    findUser (l.map fun kv => (kv.1, sortTL kv.2)) u = (findUser l u).map sortTL := by
  induction l with
  | nil => rfl
  | cons kv rest ih =>
    obtain ⟨k, tp⟩ := kv
    by_cases hk : k = u
    · simp [findUser, hk]
    · simp [findUser, hk, ih]

/-! ### Frame lemmas for the manager's primitive steps -/

theorem getUserProgress_words (st : PMState) (u : String) :
    (getUserProgress st u).2.words = st.words := by
  cases h : findUser st.progress.users u <;> simp [getUserProgress, h]

theorem getUserProgress_disk (st : PMState) (u : String) :
    (getUserProgress st u).2.disk = st.disk := by
  cases h : findUser st.progress.users u <;> simp [getUserProgress, h]

theorem getUserProgress_global (st : PMState) (u : String) :
    (getUserProgress st u).2.progress.globalTL = st.progress.globalTL := by
  cases h : findUser st.progress.users u <;> simp [getUserProgress, h]

theorem getUserProgress_fst (st : PMState) (u : String) :
    (getUserProgress st u).1 = (findUser st.progress.users u).getD ⟨[], ""⟩ := by
  cases h : findUser st.progress.users u <;> simp [getUserProgress, h]

theorem userView_getUserProgress_self (st : PMState) (u : String) :
    userView (getUserProgress st u).2 u = some (getUserProgress st u).1 := by
  cases h : findUser st.progress.users u with
  | some tp => simp [getUserProgress, h, userView]
  | none =>
    simp only [getUserProgress, h, userView]
    rw [findUser_append_of_none _ h]
    simp [findUser]

theorem userView_getUserProgress_ne {v u : String} (st : PMState) (h : v ≠ u) :
    userView (getUserProgress st u).2 v = userView st v := by
  cases hf : findUser st.progress.users u with
  | some tp => simp [getUserProgress, hf, userView]
  | none =>
    simp only [getUserProgress, hf, userView]
    cases hv : findUser st.progress.users v with
    | some tp => exact (findUser_append_of_some _ hv)
    | none =>
      rw [findUser_append_of_none _ hv]
      simp [findUser, Ne.symm h]

theorem sentWordsOf_none (st : PMState) :
    sentWordsOf st none = st.progress.globalTL.sentWords := rfl

theorem sentWordsOf_empty_id (st : PMState) :
    sentWordsOf st (some "") = st.progress.globalTL.sentWords := rfl

theorem sentWordsOf_some {u : String} (st : PMState) (h : u ≠ "") :
    sentWordsOf st (some u) = ((userView st u).map fun tp => tp.sentWords).getD [] := by
  simp [sentWordsOf, h, userView]

theorem fetchState_none (st : PMState) : fetchState st none = st := rfl

theorem fetchState_words (st : PMState) (tl : Option String) :
    (fetchState st tl).words = st.words := by
  cases tl with
  | none => rfl
  | some u =>
    by_cases h : u = "" <;> simp [fetchState, h, getUserProgress_words]

theorem fetchState_disk (st : PMState) (tl : Option String) :
    (fetchState st tl).disk = st.disk := by
  cases tl with
  | none => rfl
  | some u =>
    by_cases h : u = "" <;> simp [fetchState, h, getUserProgress_disk]

theorem fetchState_global (st : PMState) (tl : Option String) :
    (fetchState st tl).progress.globalTL = st.progress.globalTL := by
  cases tl with
  | none => rfl
  | some u =>
    by_cases h : u = "" <;> simp [fetchState, h, getUserProgress_global]

theorem sentWordsOf_getUserProgress (st : PMState) {u : String} (h : u ≠ "") :
    sentWordsOf (getUserProgress st u).2 (some u) = sentWordsOf st (some u) := by
  rw [sentWordsOf_some _ h, sentWordsOf_some _ h, userView_getUserProgress_self,
    getUserProgress_fst]
  cases hf : findUser st.progress.users u <;> simp [userView, hf]

theorem sentWordsOf_fetchState (st : PMState) (tl : Option String) :
    sentWordsOf (fetchState st tl) tl = sentWordsOf st tl := by
  cases tl with
  | none => rfl
  | some u =>
    by_cases h : u = ""
    · simp [fetchState, h]
    · simp only [fetchState, h, if_neg]
      exact sentWordsOf_getUserProgress st h

theorem availableWords_fetchState (st : PMState) (tl : Option String) :
    availableWords (fetchState st tl) tl = availableWords st tl := by
  rw [availableWords, availableWords, fetchState_words, sentWordsOf_fetchState]

theorem saveProgress_words (st : PMState) : (saveProgress st).words = st.words := rfl

theorem saveProgress_progress (st : PMState) :
    (saveProgress st).progress = sortUsers st.progress := rfl

theorem saveProgress_disk (st : PMState) :
    (saveProgress st).disk = some (saveProgress st).progress := rfl

theorem saveProgress_global (st : PMState) :
    (saveProgress st).progress.globalTL = st.progress.globalTL := rfl

theorem userView_saveProgress (st : PMState) (u : String) :
    userView (saveProgress st) u = (userView st u).map sortTL := by
  rw [userView, userView, saveProgress_progress, sortUsers]
  exact findUser_map_sort st.progress.users u

theorem sentWordsOf_saveProgress_global (st : PMState) {tl : Option String}
    (h : tl = none ∨ tl = some "") :
    sentWordsOf (saveProgress st) tl = sentWordsOf st tl := by
  rcases h with rfl | rfl <;> rfl

theorem sentWordsOf_saveProgress_user (st : PMState) {u : String} (h : u ≠ "") :
    sentWordsOf (saveProgress st) (some u) = pysort (sentWordsOf st (some u)) := by
  rw [sentWordsOf_some _ h, sentWordsOf_some _ h, userView_saveProgress]
  cases hf : userView st u with
  | none => simp [pysort_nil]
  | some tp => simp [sortTL]

theorem clearSentWords_user (st : PMState) {u : String} (h : u ≠ "") :
    clearSentWords st (some u) =
      { st with progress := { st.progress with users := clearUser st.progress.users u } } := by
  simp [clearSentWords, h]

theorem clearSentWords_words (st : PMState) (tl : Option String) :
    (clearSentWords st tl).words = st.words := by
  cases tl with
  | none => rfl
  | some u => by_cases h : u = "" <;> simp [clearSentWords, h]

theorem clearSentWords_disk (st : PMState) (tl : Option String) :
    (clearSentWords st tl).disk = st.disk := by
  cases tl with
  | none => rfl
  | some u => by_cases h : u = "" <;> simp [clearSentWords, h]

theorem sentWordsOf_clearSentWords (st : PMState) (tl : Option String) :
    sentWordsOf (clearSentWords st tl) tl = [] := by
  cases tl with
  | none => rfl
  | some u =>
    by_cases h : u = ""
    · simp [clearSentWords, h, sentWordsOf]
    · rw [clearSentWords_user st h, sentWordsOf_some _ h, userView]
      rw [findUser_clearUser_self]
      cases hf : findUser st.progress.users u <;> simp

theorem clearSentWords_global_user (st : PMState) {u : String} (h : u ≠ "") :
    (clearSentWords st (some u)).progress.globalTL = st.progress.globalTL := by
  simp [clearSentWords, h]

theorem userView_clearSentWords_ne (st : PMState) {u v : String} (hu : u ≠ "")
    (h : v ≠ u) : userView (clearSentWords st (some u)) v = userView st v := by
  simp only [clearSentWords, hu, if_neg, userView]
  exact findUser_clearUser_ne _ h

/-! ### `pickFrom` and `selectWord` -/

theorem pickFrom_cons (x : WordEntry) (rest : List WordEntry) (mode : String) (pick : Nat) :
    pickFrom (x :: rest) mode pick =
      if mode = "sequential" then some x
      else some ((x :: rest).get ⟨pick % (x :: rest).length, Nat.mod_lt _ (Nat.succ_pos _)⟩) :=
  rfl

theorem pickFrom_eq_none_iff (avail : List WordEntry) (mode : String) (pick : Nat) :
    pickFrom avail mode pick = none ↔ avail = [] := by
  cases avail with
  | nil => simp [pickFrom]
  | cons w rest =>
    constructor
    · intro h
      by_cases hm : mode = "sequential" <;> simp [pickFrom, hm] at h
    · intro h
      exact absurd h (List.cons_ne_nil _ _)

theorem pickFrom_mem {avail : List WordEntry} {mode : String} {pick : Nat} {w : WordEntry}
    (h : pickFrom avail mode pick = some w) : w ∈ avail := by
  cases avail with
  | nil => simp [pickFrom] at h
  | cons x rest =>
    by_cases hm : mode = "sequential"
    · rw [pickFrom_cons, if_pos hm, Option.some.injEq] at h
      exact h ▸ List.mem_cons_self x rest
    · rw [pickFrom_cons, if_neg hm, Option.some.injEq] at h
      exact h ▸ List.get_mem _ _ _

theorem pickFrom_exists_of_ne_nil {avail : List WordEntry} (mode : String) (pick : Nat)
    (h : avail ≠ []) : ∃ w, pickFrom avail mode pick = some w ∧ w ∈ avail := by
  cases hp : pickFrom avail mode pick with
  | none => exact absurd ((pickFrom_eq_none_iff avail mode pick).mp hp) h
  | some w => exact ⟨w, rfl, pickFrom_mem hp⟩

theorem selectWord_state (st : PMState) (tl : Option String) (mode : String) (pick : Nat) :
    (selectWord st tl mode pick).2 =
      if availableWords st tl = [] then saveProgress (clearSentWords (fetchState st tl) tl)
      else fetchState st tl := by
  rw [selectWord]
  simp only [availableWords_fetchState, List.isEmpty_iff]
  by_cases h : availableWords st tl = [] <;> simp [h]

theorem selectWord_fst (st : PMState) (tl : Option String) (mode : String) (pick : Nat) :
    (selectWord st tl mode pick).1 =
      if availableWords st tl = [] then pickFrom st.words mode pick
      else pickFrom (availableWords st tl) mode pick := by
  rw [selectWord]
  simp only [availableWords_fetchState, List.isEmpty_iff]
  by_cases h : availableWords st tl = [] <;>
    simp [h, saveProgress_words, clearSentWords_words, fetchState_words]

theorem selectWord_words (st : PMState) (tl : Option String) (mode : String) (pick : Nat) :
    (selectWord st tl mode pick).2.words = st.words := by
  rw [selectWord_state]
  by_cases h : availableWords st tl = [] <;>
    simp [h, saveProgress_words, clearSentWords_words, fetchState_words]

theorem sentWordsOf_selectWord (st : PMState) (tl : Option String) (mode : String)
    (pick : Nat) :
    sentWordsOf (selectWord st tl mode pick).2 tl =
      if availableWords st tl = [] then [] else sentWordsOf st tl := by
  rw [selectWord_state]
  by_cases h : availableWords st tl = []
  · simp only [h, if_pos]
    cases tl with
    | none => rfl
    | some u =>
      by_cases hu : u = ""
      · subst hu
        rw [sentWordsOf_saveProgress_global _ (Or.inr rfl), sentWordsOf_clearSentWords]
      · rw [sentWordsOf_saveProgress_user _ hu, sentWordsOf_clearSentWords, pysort_nil]
  · simp only [h, if_neg]
    exact sentWordsOf_fetchState st tl

/-! ### `markWordSent` effect lemmas -/

theorem markGlobal_global (st : PMState) (w today : String) :
    (markGlobal st w today).progress.globalTL =
      ⟨if w ∈ st.progress.globalTL.sentWords then st.progress.globalTL.sentWords
        else st.progress.globalTL.sentWords ++ [w], today⟩ := rfl

theorem markGlobal_users (st : PMState) (w today : String) :
    (markGlobal st w today).progress.users = st.progress.users := rfl

theorem markGlobal_words (st : PMState) (w today : String) :
    (markGlobal st w today).words = st.words := rfl

theorem markUser_words (st : PMState) (u w today : String) :
    (markUser st u w today).words = st.words := by
  simp only [markUser]
  exact getUserProgress_words st u

theorem markUser_global (st : PMState) (u w today : String) :
    (markUser st u w today).progress.globalTL = st.progress.globalTL := by
  simp only [markUser]
  exact getUserProgress_global st u

theorem getUserProgress_fst_sentWords (st : PMState) {u : String} (h : u ≠ "") :
    (getUserProgress st u).1.sentWords = sentWordsOf st (some u) := by
  rw [getUserProgress_fst, sentWordsOf_some _ h, userView]
  cases hf : findUser st.progress.users u <;> simp [hf]

theorem userView_markUser_self (st : PMState) (u w today : String) :
    userView (markUser st u w today) u =
      some ⟨if w ∈ (getUserProgress st u).1.sentWords then (getUserProgress st u).1.sentWords
            else (getUserProgress st u).1.sentWords ++ [w], today⟩ := by
  simp only [markUser, userView]
  exact findUser_setUser_self _ _ _

theorem userView_markUser_ne (st : PMState) {u v : String} (w today : String) (h : v ≠ u) :
    userView (markUser st u w today) v = userView st v := by
  simp only [markUser, userView]
  rw [findUser_setUser_ne _ _ h]
  exact userView_getUserProgress_ne st h

theorem markDispatch_none (st : PMState) (w today : String) :
    markDispatch st w none today = markGlobal st w today := rfl

theorem markDispatch_empty_id (st : PMState) (w today : String) :
    markDispatch st w (some "") today = markGlobal st w today := by
  simp [markDispatch]

theorem markDispatch_user (st : PMState) (w today : String) {u : String} (hu : u ≠ "") :
    markDispatch st w (some u) today = markUser st u w today := by
  simp [markDispatch, hu]

theorem markDispatch_words (st : PMState) (w : String) (tl : Option String) (today : String) :
    (markDispatch st w tl today).words = st.words := by
  cases tl with
  | none => rfl
  | some u =>
    by_cases hu : u = ""
    · subst hu; rw [markDispatch_empty_id, markGlobal_words]
    · rw [markDispatch_user st w today hu]; exact markUser_words st u w today

theorem markWordSent_words (st : PMState) (w : String) (tl : Option String) (today : String) :
    (markWordSent st w tl today).words = st.words := by
  by_cases hk : w ∈ wordKeys st.words
  · rw [markWordSent, if_pos hk, saveProgress_words, markDispatch_words]
  · rw [markWordSent, if_neg hk]

theorem sentWordsOf_markWordSent_global (st : PMState) (w today : String)
    {tl : Option String} (h : tl = none ∨ tl = some "") :
    sentWordsOf (markWordSent st w tl today) tl =
      if w ∈ wordKeys st.words then
        (if w ∈ sentWordsOf st tl then sentWordsOf st tl else sentWordsOf st tl ++ [w])
      else sentWordsOf st tl := by
  by_cases hk : w ∈ wordKeys st.words
  · rw [markWordSent, if_pos hk, if_pos hk]
    rcases h with rfl | rfl
    · rw [markDispatch_none, sentWordsOf_saveProgress_global _ (Or.inl rfl), sentWordsOf_none,
        markGlobal_global]
      rfl
    · rw [markDispatch_empty_id, sentWordsOf_saveProgress_global _ (Or.inr rfl)]
      simp only [sentWordsOf_empty_id]
      rw [markGlobal_global]
  · rw [markWordSent, if_neg hk, if_neg hk]

theorem sentWordsOf_markWordSent_user (st : PMState) (w today : String) {u : String}
    (hu : u ≠ "") :
    sentWordsOf (markWordSent st w (some u) today) (some u) =
      if w ∈ wordKeys st.words then
        pysort (if w ∈ sentWordsOf st (some u) then sentWordsOf st (some u)
                else sentWordsOf st (some u) ++ [w])
      else sentWordsOf st (some u) := by
  by_cases hk : w ∈ wordKeys st.words
  · rw [markWordSent, if_pos hk, if_pos hk, markDispatch_user st w today hu]
    rw [sentWordsOf_saveProgress_user _ hu, sentWordsOf_some _ hu,
      userView_markUser_self, getUserProgress_fst_sentWords st hu]
    simp
  · rw [markWordSent, if_neg hk, if_neg hk]

/-! ### `tlSetEq` helper lemmas -/

theorem tlSetEq_refl (o : Option TimelineProgress) : tlSetEq o o := by
  cases o <;> simp [tlSetEq]

theorem tlSetEq_map_sortTL (o : Option TimelineProgress) : tlSetEq (o.map sortTL) o := by
  cases o with
  | none => simp [tlSetEq]
  | some tp => exact ⟨fun x => mem_pysort, rfl⟩

/-! ### The C2 invariant -/

theorem sentInv_nil (words : List WordEntry) : SentInv words [] :=
  ⟨List.nodup_nil, by simp⟩

theorem sentInv_pysort {words : List WordEntry} {sent : List String}
    (h : SentInv words sent) : SentInv words (pysort sent) :=
  ⟨nodup_pysort h.1, fun w hw => h.2 w (mem_pysort.mp hw)⟩

theorem sentInv_add {words : List WordEntry} {sent : List String} {w : String}
    (h : SentInv words sent) (hw : w ∈ wordKeys words) :
    SentInv words (if w ∈ sent then sent else sent ++ [w]) := by
  by_cases hmem : w ∈ sent
  · rw [if_pos hmem]; exact h
  · rw [if_neg hmem]
    refine ⟨List.nodup_append.mpr ⟨h.1, List.nodup_singleton w, ?_⟩, ?_⟩
    · intro a ha hb
      rw [List.mem_singleton] at hb
      exact hmem (hb ▸ ha)
    · intro x hx
      rcases List.mem_append.mp hx with hx | hx
      · exact h.2 x hx
      · rw [List.mem_singleton] at hx
        exact hx ▸ hw

theorem applyTimelineOp_words (tl : Option String) (st : PMState) (op : TimelineOp) :
    (applyTimelineOp tl st op).words = st.words := by
  cases op with
  | select mode pick => exact selectWord_words st tl mode pick
  | mark w today => exact markWordSent_words st w tl today

theorem sentInv_applyTimelineOp (tl : Option String) (st : PMState) (op : TimelineOp)
    (h : SentInv st.words (sentWordsOf st tl)) :
    SentInv st.words (sentWordsOf (applyTimelineOp tl st op) tl) := by
  cases op with
  | select mode pick =>
    rw [applyTimelineOp, sentWordsOf_selectWord]
    by_cases ha : availableWords st tl = []
    · rw [if_pos ha]; exact sentInv_nil _
    · rw [if_neg ha]; exact h
  | mark w today =>
    rw [applyTimelineOp]
    cases tl with
    | none =>
      rw [sentWordsOf_markWordSent_global st w today (Or.inl rfl)]
      by_cases hk : w ∈ wordKeys st.words
      · rw [if_pos hk]; exact sentInv_add h hk
      · rw [if_neg hk]; exact h
    | some u =>
      by_cases hu : u = ""
      · subst hu
        rw [sentWordsOf_markWordSent_global st w today (Or.inr rfl)]
        by_cases hk : w ∈ wordKeys st.words
        · rw [if_pos hk]; exact sentInv_add h hk
        · rw [if_neg hk]; exact h
      · rw [sentWordsOf_markWordSent_user st w today hu]
        by_cases hk : w ∈ wordKeys st.words
        · rw [if_pos hk]; exact sentInv_pysort (sentInv_add h hk)
        · rw [if_neg hk]; exact h

theorem runOps_words (tl : Option String) (ops : List TimelineOp) (st : PMState) :
    (runOps tl ops st).words = st.words := by
  induction ops generalizing st with
  | nil => rfl
  | cons op ops ih =>
    rw [runOps, ih, applyTimelineOp_words]

theorem sentInv_runOps (tl : Option String) (ops : List TimelineOp) (st : PMState)
    (h : SentInv st.words (sentWordsOf st tl)) :
    SentInv st.words (sentWordsOf (runOps tl ops st) tl) := by
  induction ops generalizing st with
  | nil => exact h
  | cons op ops ih =>
    rw [runOps]
    have h1 := sentInv_applyTimelineOp tl st op h
    rw [← applyTimelineOp_words tl st op] at h1
    have h2 := ih (applyTimelineOp tl st op) h1
    rw [applyTimelineOp_words] at h2
    exact h2

theorem sentWordsOf_initState (words : List WordEntry) (tl : Option String) :
    sentWordsOf (initState words) tl = [] := by
  cases tl with
  | none => rfl
  | some u => by_cases hu : u = "" <;> simp [sentWordsOf, hu, initState, defaultProgress, findUser]

theorem availableWords_eq_nil_iff (st : PMState) (tl : Option String) :
    availableWords st tl = [] ↔ ∀ w ∈ st.words, w.word ∈ sentWordsOf st tl := by
  rw [availableWords, List.filter_eq_nil_iff]
  simp

theorem nodup_subset_length_le {sent keys : List String} (hnd : sent.Nodup)
    (hsub : ∀ x ∈ sent, x ∈ keys) : sent.length ≤ keys.length := by
  have h1 : sent.toFinset.card = sent.length := List.toFinset_card_of_nodup hnd
  have h2 : sent.toFinset ⊆ keys.toFinset := by
    intro x hx
    exact List.mem_toFinset.mpr (hsub x (List.mem_toFinset.mp hx))
  calc sent.length = sent.toFinset.card := h1.symm
    _ ≤ keys.toFinset.card := Finset.card_le_card h2
    _ ≤ keys.length := List.toFinset_card_le keys

theorem userView_markGlobal (st : PMState) (w today u : String) :
    userView (markGlobal st w today) u = userView st u := rfl

theorem userView_clearSentWords_none (st : PMState) (u : String) :
    userView (clearSentWords st none) u = userView st u := rfl

theorem userView_fetchState_user_ne (st : PMState) {a b : String} (ha : a ≠ "")
    (hb : b ≠ a) : userView (fetchState st (some a)) b = userView st b := by
  simp only [fetchState]
  rw [if_neg ha]
  exact userView_getUserProgress_ne st hb

/-! ### Claim theorems -/

/-- C3: the scheduler's next-target computation with `genTime` 07:30 and
`pushTime` 08:00 yields today 07:30 at 07:00 before generation, today
08:00 at 07:45 after generation, and tomorrow 07:30 at 08:15 with both
triggers past (times in seconds of day: 07:00 = 25200, 07:30 = 27000,
07:45 = 27900, 08:00 = 28800, 08:15 = 29700). -/
theorem c3_scheduler_next_target (d : Nat) :
    calculateNextTargetTime false ⟨d, 25200⟩ (7, 30) (8, 0) = some ⟨d, 27000⟩ ∧
    calculateNextTargetTime true ⟨d, 27900⟩ (7, 30) (8, 0) = some ⟨d, 28800⟩ ∧
    calculateNextTargetTime true ⟨d, 29700⟩ (7, 30) (8, 0) = some ⟨d + 1, 27000⟩ := by
  refine ⟨?_, ?_, ?_⟩ <;>
    simp [calculateNextTargetTime, instantLt, pyMinList, triggerSec]

/-- C5 (counterexample): persisting a store whose *global* timeline holds
`["b", "a"]` writes that list to disk unsorted, refuting the claim that
every timeline's `sentWords` is sorted ascending before each write. -/
theorem c5_counterexample :
    (saveProgress ⟨[], ⟨⟨["b", "a"], ""⟩, []⟩, none⟩).disk =
      some ⟨⟨["b", "a"], ""⟩, []⟩ ∧ ¬ SortedAsc ["b", "a"] := by
  exact ⟨rfl, by decide⟩

/-- C5 (amended): on every write of the persisted store, each *user*
timeline's `sentWords` list is sorted ascending before being written,
while the global timeline's list is written unchanged. -/
theorem c5_save_sorts_user_lists (st : PMState) :
    (saveProgress st).disk = some (saveProgress st).progress ∧
    (saveProgress st).progress.globalTL = st.progress.globalTL ∧
    ∀ kv ∈ (saveProgress st).progress.users, SortedAsc kv.2.sentWords := by
  refine ⟨rfl, rfl, ?_⟩
  intro kv hkv
  rw [saveProgress_progress, sortUsers] at hkv
  rcases List.mem_map.mp hkv with ⟨kv0, _, rfl⟩
  exact sortedAsc_pysort kv0.2.sentWords

/-- C5 (witness): a concrete save; user list `["b", "a"]` is persisted
sorted as `["a", "b"]`. -/
theorem c5_save_sorts_user_lists_witness :
    (saveProgress ⟨[], ⟨⟨[], ""⟩, [("u", ⟨["b", "a"], ""⟩)]⟩, none⟩).disk =
      some (saveProgress ⟨[], ⟨⟨[], ""⟩, [("u", ⟨["b", "a"], ""⟩)]⟩, none⟩).progress ∧
    SortedAsc (["a", "b"] : List String) :=
  ⟨(c5_save_sorts_user_lists ⟨[], ⟨⟨[], ""⟩, [("u", ⟨["b", "a"], ""⟩)]⟩, none⟩).1,
   (c5_save_sorts_user_lists ⟨[], ⟨⟨[], ""⟩, [("u", ⟨["b", "a"], ""⟩)]⟩, none⟩).2.2
     ("u", ⟨["a", "b"], ""⟩) (by decide)⟩

/-- C6 (counterexample): a progress file whose content parses to the JSON
number `5` makes `_load_progress` raise an uncaught `TypeError` (the
`"global" not in data` membership test), refuting "never raises to the
caller ... for any malformed payload". -/
theorem c6_counterexample :
    loadProgress (FileRead.parsed (JVal.jnum 5)) = Except.error PyErr.typeError := rfl

/-- C6 (amended): a missing file, an unreadable file (`IOError`) or a
JSON parse failure yields the empty default structure without raising,
and a payload that parses to a JSON *object* never raises; but a
parseable payload that is not an object can raise a `TypeError`. -/
theorem c6_load_fallback :
    loadProgress FileRead.absent = Except.ok defaultProgressJ ∧
    loadProgress FileRead.ioError = Except.ok defaultProgressJ ∧
    loadProgress FileRead.parseError = Except.ok defaultProgressJ ∧
    ∀ fields, ∃ v, loadProgress (FileRead.parsed (JVal.jobj fields)) = Except.ok v := by
  refine ⟨rfl, rfl, rfl, ?_⟩
  intro fields
  simp only [loadProgress, pyContains, pySetItem]
  by_cases hg : (fields.any fun kv => kv.1 = "global") = true
  · simp only [hg, if_pos]
    by_cases hu : (fields.any fun kv => kv.1 = "users") = true
    · simp [hu]
    · simp [hu]
  · simp only [Bool.not_eq_true] at hg
    simp only [hg]
    by_cases hu : ((setField fields "global" defaultGlobalJ).any fun kv => kv.1 = "users") = true
    · simp [hu]
    · simp [hu]

/-- C7 (counterexample): `"99:99"` is not a well-formed HH:MM time of
day, yet `_parse_time` returns `(99, 99)` instead of falling back to
`(8, 0)`. -/
theorem c7_counterexample :
    wellFormedHHMM "99:99" = false ∧ parseTime "99:99" = (99, 99) ∧
    ((99 : Int), (99 : Int)) ≠ ((8 : Int), (0 : Int)) := by
  decide

/-- C7 (amended): `_parse_time` falls back to `(8, 0)` exactly when the
split/int-conversion stage fails; when the first two colon-separated
fields convert as Python ints, those values are returned unchecked (no
0-23 / 0-59 range validation). -/
theorem c7_parse_time_fallback (s : String) :
    parseTime s = (8, 0) ∨
    ∃ p0 p1 rest, pySplit ':' s.data = p0 :: p1 :: rest ∧
      ∃ a b, pyInt (String.mk p0) = some a ∧ pyInt (String.mk p1) = some b ∧
        parseTime s = (a, b) := by
  cases h : pySplit ':' s.data with
  | nil => left; simp [parseTime, h]
  | cons p0 ps =>
    cases ps with
    | nil => left; simp [parseTime, h]
    | cons p1 rest =>
      cases ha : pyInt (String.mk p0) with
      | none => left; simp [parseTime, h, ha]
      | some a =>
        cases hb : pyInt (String.mk p1) with
        | none => left; simp [parseTime, h, ha, hb]
        | some b =>
          right
          exact ⟨p0, p1, rest, rfl, a, b, ha, hb, by simp [parseTime, h, ha, hb]⟩

/-- C1: for every timeline and mode, `select_word` returns `None` only
when the corpus is empty; when the timeline's available set is empty and
the corpus is not, it clears that timeline's `sent_words`, persists the
store, and returns an element of the full corpus. -/
theorem c1_select_word (st : PMState) (tl : Option String) (mode : String) (pick : Nat) :
    ((selectWord st tl mode pick).1 = none → st.words = []) ∧
    (availableWords st tl = [] → st.words ≠ [] →
      sentWordsOf (selectWord st tl mode pick).2 tl = [] ∧
      (selectWord st tl mode pick).2.disk = some (selectWord st tl mode pick).2.progress ∧
      ∃ w, (selectWord st tl mode pick).1 = some w ∧ w ∈ st.words) := by
  constructor
  · intro hnone
    rw [selectWord_fst] at hnone
    by_cases ha : availableWords st tl = []
    · rw [if_pos ha] at hnone
      exact (pickFrom_eq_none_iff _ _ _).mp hnone
    · rw [if_neg ha] at hnone
      exact absurd ((pickFrom_eq_none_iff _ _ _).mp hnone) ha
  · intro ha hw
    refine ⟨?_, ?_, ?_⟩
    · rw [sentWordsOf_selectWord, if_pos ha]
    · rw [selectWord_state, if_pos ha]
      exact saveProgress_disk _
    · rw [selectWord_fst, if_pos ha]
      exact pickFrom_exists_of_ne_nil mode pick hw

/-- C1 (witness): wraparound on a one-word corpus with the global
timeline exhausted. -/
theorem c1_select_word_witness :
    sentWordsOf (selectWord ⟨[⟨"a", "", "", "", ""⟩], ⟨⟨["a"], "d"⟩, []⟩, none⟩
        none "sequential" 0).2 none = [] ∧
    (selectWord ⟨[⟨"a", "", "", "", ""⟩], ⟨⟨["a"], "d"⟩, []⟩, none⟩
        none "sequential" 0).2.disk =
      some (selectWord ⟨[⟨"a", "", "", "", ""⟩], ⟨⟨["a"], "d"⟩, []⟩, none⟩
        none "sequential" 0).2.progress ∧
    ∃ w, (selectWord ⟨[⟨"a", "", "", "", ""⟩], ⟨⟨["a"], "d"⟩, []⟩, none⟩
        none "sequential" 0).1 = some w ∧ w ∈ [(⟨"a", "", "", "", ""⟩ : WordEntry)] :=
  (c1_select_word ⟨[⟨"a", "", "", "", ""⟩], ⟨⟨["a"], "d"⟩, []⟩, none⟩ none "sequential" 0).2
    (by decide) (by decide)

/-- C4 (counterexample): `get_status` for an unseen user id mutates the
in-memory store (it creates the user's empty record), refuting "leaves
the progress store (both in memory and on disk) completely unchanged". -/
theorem c4_counterexample :
    (getStatus ⟨[], ⟨⟨[], ""⟩, []⟩, none⟩ (some "alice")).2 ≠
      ⟨[], ⟨⟨[], ""⟩, []⟩, none⟩ := by
  decide

/-- C4 (amended): `get_status` never writes to disk, never changes the
corpus, the global timeline, or any existing record, and its
`totalCount` always equals the corpus size; the sole mutation is the
lazy creation of an empty record for a previously unseen user id. -/
theorem c4_get_status (st : PMState) (tl : Option String) :
    (getStatus st tl).2.disk = st.disk ∧
    (getStatus st tl).1.total = st.words.length ∧
    (getStatus st tl).2.words = st.words ∧
    (getStatus st tl).2.progress.globalTL = st.progress.globalTL ∧
    ((tl = none ∨ tl = some "" ∨ ∃ u, tl = some u ∧ (userView st u).isSome) →
      (getStatus st tl).2 = st) ∧
    (∀ u, tl = some u → u ≠ "" → userView st u = none →
      (getStatus st tl).2.progress.users = st.progress.users ++ [(u, ⟨[], ""⟩)]) := by
  cases tl with
  | none =>
    refine ⟨rfl, rfl, rfl, rfl, fun _ => rfl, ?_⟩
    intro u h
    exact Option.noConfusion h
  | some u =>
    by_cases hu : u = ""
    · subst hu
      refine ⟨rfl, rfl, rfl, rfl, fun _ => rfl, ?_⟩
      intro u' h1 h2 _
      injection h1 with h1
      exact absurd h1.symm h2
    · have e : getStatus st (some u) =
          (⟨"user", (getUserProgress st u).1.sentWords.length, st.words.length,
            (getUserProgress st u).1.lastDate⟩, (getUserProgress st u).2) := by
        simp [getStatus, hu]
      rw [e]
      refine ⟨getUserProgress_disk st u, rfl, getUserProgress_words st u,
        getUserProgress_global st u, ?_, ?_⟩
      · rintro (h | h | ⟨u', h', hsome⟩)
        · exact Option.noConfusion h
        · injection h with h
          exact absurd h hu
        · injection h' with h'
          subst h'
          rw [userView] at hsome
          cases hf : findUser st.progress.users u with
          | none => rw [hf] at hsome; simp at hsome
          | some tp => simp [getUserProgress, hf]
      · intro u' h1 h2 h3
        injection h1 with h1
        subst h1
        rw [userView] at h3
        simp [getUserProgress, h3]

/-- C4 (witness): querying an already-known user leaves the state
exactly unchanged. -/
theorem c4_get_status_witness :
    (getStatus ⟨[], ⟨⟨[], ""⟩, [("u", ⟨[], ""⟩)]⟩, none⟩ (some "u")).2 =
      ⟨[], ⟨⟨[], ""⟩, [("u", ⟨[], ""⟩)]⟩, none⟩ :=
  (c4_get_status ⟨[], ⟨⟨[], ""⟩, [("u", ⟨[], ""⟩)]⟩, none⟩ (some "u")).2.2.2.2.1
    (Or.inr (Or.inr ⟨"u", rfl, by decide⟩))

/-- C2: for a nonempty corpus and any sequence of `select_word` /
`mark_word_sent` calls addressed to one timeline, starting from a fresh
store, the timeline's `sent_words` is always a duplicate-free subset of
the corpus keys (so its size never exceeds the corpus size), and a
further `select_word` call clears it exactly when it already equals the
full corpus key set. -/
theorem c2_sent_words_invariant (words : List WordEntry) (tl : Option String)
    (ops : List TimelineOp) (hw : words ≠ []) :
    ((sentWordsOf (runOps tl ops (initState words)) tl).Nodup ∧
      (∀ x ∈ sentWordsOf (runOps tl ops (initState words)) tl, x ∈ wordKeys words) ∧
      (sentWordsOf (runOps tl ops (initState words)) tl).length ≤ words.length) ∧
    (∀ mode pick,
      (sentWordsOf (applyTimelineOp tl (runOps tl ops (initState words))
          (TimelineOp.select mode pick)) tl = [] ∧
        sentWordsOf (runOps tl ops (initState words)) tl ≠ []) ↔
      (∀ k, k ∈ sentWordsOf (runOps tl ops (initState words)) tl ↔ k ∈ wordKeys words)) := by
  have hword : (runOps tl ops (initState words)).words = words :=
    runOps_words tl ops (initState words)
  have hinv : SentInv (initState words).words (sentWordsOf (initState words) tl) := by
    rw [sentWordsOf_initState]
    exact sentInv_nil _
  obtain ⟨hnd, hsub⟩ := sentInv_runOps tl ops (initState words) hinv
  constructor
  · refine ⟨hnd, hsub, ?_⟩
    have hle := nodup_subset_length_le hnd hsub
    rwa [wordKeys, List.length_map] at hle
  · intro mode pick
    rw [applyTimelineOp, sentWordsOf_selectWord]
    constructor
    · rintro ⟨hpost, hpre⟩
      by_cases ha : availableWords (runOps tl ops (initState words)) tl = []
      · have hall := (availableWords_eq_nil_iff _ tl).mp ha
        rw [hword] at hall
        intro k
        refine ⟨hsub k, ?_⟩
        intro hk
        rw [wordKeys] at hk
        rcases List.mem_map.mp hk with ⟨w, hw', rfl⟩
        exact hall w hw'
      · rw [if_neg ha] at hpost
        exact absurd hpost hpre
    · intro hiff
      have ha : availableWords (runOps tl ops (initState words)) tl = [] := by
        rw [availableWords_eq_nil_iff, hword]
        intro w hw'
        refine (hiff w.word).mpr ?_
        rw [wordKeys]
        exact List.mem_map_of_mem _ hw'
      refine ⟨by rw [if_pos ha], ?_⟩
      cases words with
      | nil => exact absurd rfl hw
      | cons w0 ws =>
        have h0 : w0.word ∈ sentWordsOf (runOps tl ops (initState (w0 :: ws))) tl := by
          refine (hiff w0.word).mpr ?_
          rw [wordKeys]
          exact List.mem_map_of_mem _ (List.mem_cons_self w0 ws)
        exact List.ne_nil_of_mem h0

/-- C2 (witness): the invariant and the wraparound characterisation at a
concrete one-word corpus with no operations yet. -/
theorem c2_sent_words_invariant_witness :
    ((sentWordsOf (runOps none [] (initState [⟨"a", "", "", "", ""⟩])) none).Nodup ∧
      (∀ x ∈ sentWordsOf (runOps none [] (initState [⟨"a", "", "", "", ""⟩])) none,
        x ∈ wordKeys [⟨"a", "", "", "", ""⟩]) ∧
      (sentWordsOf (runOps none [] (initState [⟨"a", "", "", "", ""⟩])) none).length ≤
        ([⟨"a", "", "", "", ""⟩] : List WordEntry).length) ∧
    (∀ mode pick,
      (sentWordsOf (applyTimelineOp none (runOps none [] (initState [⟨"a", "", "", "", ""⟩]))
          (TimelineOp.select mode pick)) none = [] ∧
        sentWordsOf (runOps none [] (initState [⟨"a", "", "", "", ""⟩])) none ≠ []) ↔
      (∀ k, k ∈ sentWordsOf (runOps none [] (initState [⟨"a", "", "", "", ""⟩])) none ↔
        k ∈ wordKeys [⟨"a", "", "", "", ""⟩])) :=
  c2_sent_words_invariant [⟨"a", "", "", "", ""⟩] none [] (by decide)

/-- C9 (counterexample): `mark_word_sent` addressed to user "alice"
re-sorts user "bob"'s in-memory `sent_words` list (the save-time sort),
so bob's stored state is not left unchanged. -/
theorem c9_counterexample :
    userView (markWordSent ⟨[⟨"a", "", "", "", ""⟩],
        ⟨⟨[], ""⟩, [("bob", ⟨["b", "a"], ""⟩)]⟩, none⟩ "a" (some "alice") "d") "bob" ≠
      userView ⟨[⟨"a", "", "", "", ""⟩],
        ⟨⟨[], ""⟩, [("bob", ⟨["b", "a"], ""⟩)]⟩, none⟩ "bob" := by
  decide

/-- C9 (amended): operations addressed to user `a` leave the global
timeline exactly unchanged and leave every other user's record unchanged
*as a set* (same `sentWords` membership, same date) — the synchronous
save may only re-sort the other user's stored list; operations addressed
to the global timeline likewise preserve every user's record as a set. -/
theorem c9_timeline_frame (st : PMState) (a w today mode : String) (pick : Nat)
    (ha : a ≠ "") :
    (markWordSent st w (some a) today).progress.globalTL = st.progress.globalTL ∧
    (selectWord st (some a) mode pick).2.progress.globalTL = st.progress.globalTL ∧
    (∀ b, b ≠ a → tlSetEq (userView (markWordSent st w (some a) today) b) (userView st b)) ∧
    (∀ b, b ≠ a → tlSetEq (userView (selectWord st (some a) mode pick).2 b) (userView st b)) ∧
    (∀ u, tlSetEq (userView (markWordSent st w none today) u) (userView st u)) ∧
    (∀ u, tlSetEq (userView (selectWord st none mode pick).2 u) (userView st u)) := by
  refine ⟨?_, ?_, ?_, ?_, ?_, ?_⟩
  · by_cases hk : w ∈ wordKeys st.words
    · rw [markWordSent, if_pos hk, saveProgress_global, markDispatch_user st w today ha,
        markUser_global]
    · rw [markWordSent, if_neg hk]
  · rw [selectWord_state]
    by_cases hav : availableWords st (some a) = []
    · rw [if_pos hav, saveProgress_global, clearSentWords_global_user _ ha, fetchState_global]
    · rw [if_neg hav, fetchState_global]
  · intro b hb
    by_cases hk : w ∈ wordKeys st.words
    · rw [markWordSent, if_pos hk, userView_saveProgress, markDispatch_user st w today ha,
        userView_markUser_ne st w today hb]
      exact tlSetEq_map_sortTL _
    · rw [markWordSent, if_neg hk]
      exact tlSetEq_refl _
  · intro b hb
    rw [selectWord_state]
    by_cases hav : availableWords st (some a) = []
    · rw [if_pos hav, userView_saveProgress, userView_clearSentWords_ne _ ha hb,
        userView_fetchState_user_ne st ha hb]
      exact tlSetEq_map_sortTL _
    · rw [if_neg hav, userView_fetchState_user_ne st ha hb]
      exact tlSetEq_refl _
  · intro u
    by_cases hk : w ∈ wordKeys st.words
    · rw [markWordSent, if_pos hk, userView_saveProgress, markDispatch_none, userView_markGlobal]
      exact tlSetEq_map_sortTL _
    · rw [markWordSent, if_neg hk]
      exact tlSetEq_refl _
  · intro u
    rw [selectWord_state]
    by_cases hav : availableWords st none = []
    · rw [if_pos hav, userView_saveProgress, fetchState_none, userView_clearSentWords_none]
      exact tlSetEq_map_sortTL _
    · rw [if_neg hav, fetchState_none]
      exact tlSetEq_refl _

/-- C9 (witness): a concrete mark for "alice" preserves "bob"'s record
as a set. -/
theorem c9_timeline_frame_witness :
    tlSetEq (userView (markWordSent ⟨[⟨"a", "", "", "", ""⟩],
        ⟨⟨[], ""⟩, [("bob", ⟨["b", "a"], ""⟩)]⟩, none⟩ "a" (some "alice") "d") "bob")
      (userView ⟨[⟨"a", "", "", "", ""⟩],
        ⟨⟨[], ""⟩, [("bob", ⟨["b", "a"], ""⟩)]⟩, none⟩ "bob") :=
  (c9_timeline_frame ⟨[⟨"a", "", "", "", ""⟩],
      ⟨⟨[], ""⟩, [("bob", ⟨["b", "a"], ""⟩)]⟩, none⟩ "alice" "a" "d" "x" 0
    (by decide)).2.2.1 "bob" (by decide)

/-! ### Lemmas for `selectRecapWords` -/

theorem recapCount_eq_min (count n : Nat) : recapCount count n = min count n := by
  unfold recapCount
  split <;> omega

theorem filterMap_get?_length {α : Type} (sent : List α) (idxs : List Nat)
    (hval : ∀ i ∈ idxs, i < sent.length) :
    (idxs.filterMap fun i => sent.get? i).length = idxs.length := by
  induction idxs with
  | nil => rfl
  | cons i rest ih =>
    have hi : i < sent.length := hval i (List.mem_cons_self i rest)
    rw [List.filterMap_cons, List.get?_eq_get hi]
    simp only [List.length_cons]
    rw [ih fun j hj => hval j (List.mem_cons_of_mem i hj)]

theorem filterMap_get?_subset {α : Type} (sent : List α) (idxs : List Nat) :
    ∀ x ∈ idxs.filterMap fun i => sent.get? i, x ∈ sent := by
  intro x hx
  rcases List.mem_filterMap.mp hx with ⟨i, _, hg⟩
  exact List.get?_mem hg

theorem filterMap_get?_nodup {α : Type} {sent : List α} {idxs : List Nat}
    (hsent : sent.Nodup) (hnd : idxs.Nodup) (hval : ∀ i ∈ idxs, i < sent.length) :
    (idxs.filterMap fun i => sent.get? i).Nodup := by
  induction idxs with
  | nil => exact List.nodup_nil
  | cons i rest ih =>
    rw [List.nodup_cons] at hnd
    have hi : i < sent.length := hval i (List.mem_cons_self i rest)
    rw [List.filterMap_cons, List.get?_eq_get hi]
    rw [List.nodup_cons]
    constructor
    · intro hmem
      rcases List.mem_filterMap.mp hmem with ⟨j, hj, hgj⟩
      have hjlt : j < sent.length := hval j (List.mem_cons_of_mem i hj)
      rw [List.get?_eq_get hjlt, Option.some.injEq] at hgj
      have hji := (List.Nodup.get_inj_iff hsent).mp hgj
      have hj2 : j = i := by simpa using hji
      exact hnd.1 (hj2 ▸ hj)
    · exact ih hnd.2 fun j hj => hval j (List.mem_cons_of_mem i hj)

theorem mem_of_getLast?_eq {α : Type} {l : List α} {a : α} (h : l.getLast? = some a) :
    a ∈ l := by
  have hx : a ∈ l.getLast? := Option.mem_def.mpr h
  rcases List.mem_getLast?_eq_getLast hx with ⟨hne, rfl⟩
  exact List.getLast_mem hne

theorem wordMapFind_word {words : List WordEntry} {k : String} {e : WordEntry}
    (h : wordMapFind words k = some e) : e.word = k := by
  rw [wordMapFind] at h
  have hm := mem_of_getLast?_eq h
  have hf := List.mem_filter.mp hm
  exact of_decide_eq_true hf.2

theorem wordMapFind_isSome_iff (words : List WordEntry) (k : String) :
    (wordMapFind words k).isSome = true ↔ k ∈ wordKeys words := by
  constructor
  · intro h
    rcases Option.isSome_iff_exists.mp h with ⟨e, he⟩
    have hw := wordMapFind_word he
    rw [wordMapFind] at he
    have hm := mem_of_getLast?_eq he
    have hf := List.mem_filter.mp hm
    rw [wordKeys]
    exact hw ▸ List.mem_map_of_mem _ hf.1
  · intro h
    rw [wordKeys] at h
    rcases List.mem_map.mp h with ⟨w, hw, rfl⟩
    have hw' : w ∈ words.filter fun x => x.word = w.word :=
      List.mem_filter.mpr ⟨hw, by simp⟩
    rw [wordMapFind]
    exact List.getLast?_isSome.mpr (List.ne_nil_of_mem hw')

theorem map_word_filterMap_wordMapFind (words : List WordEntry) (l : List String) :
    ((l.filterMap fun k => wordMapFind words k).map fun e => e.word) =
      l.filter fun k => (wordMapFind words k).isSome := by
  induction l with
  | nil => rfl
  | cons k rest ih =>
    rw [List.filterMap_cons, List.filter_cons]
    cases h : wordMapFind words k with
    | none => simp [h, ih]
    | some e => simp [h, ih, wordMapFind_word h]

theorem recap_core (words : List WordEntry) (sent : List String) (count : Nat)
    (idxs : List Nat) (hnd : sent.Nodup) (hidxnd : idxs.Nodup)
    (hlen : idxs.length = recapCount count sent.length)
    (hval : ∀ i ∈ idxs, i < sent.length) :
    ((((idxs.take (recapCount count sent.length)).filterMap fun i => sent.get? i).filterMap
        fun k => wordMapFind words k).map fun e => e.word).Nodup ∧
    (∀ e ∈ ((idxs.take (recapCount count sent.length)).filterMap fun i =>
        sent.get? i).filterMap fun k => wordMapFind words k, e.word ∈ sent) ∧
    (((idxs.take (recapCount count sent.length)).filterMap fun i => sent.get? i).filterMap
        fun k => wordMapFind words k).length ≤ min count sent.length ∧
    ((∀ x ∈ sent, x ∈ wordKeys words) →
      (((idxs.take (recapCount count sent.length)).filterMap fun i => sent.get? i).filterMap
          fun k => wordMapFind words k).length = min count sent.length) := by
  have htake : idxs.take (recapCount count sent.length) = idxs := by
    rw [← hlen]
    exact List.take_length idxs
  rw [htake]
  have hsamlen : (idxs.filterMap fun i => sent.get? i).length = recapCount count sent.length := by
    rw [filterMap_get?_length _ _ hval, hlen]
  refine ⟨?_, ?_, ?_, ?_⟩
  · rw [map_word_filterMap_wordMapFind]
    exact List.Nodup.filter _ (filterMap_get?_nodup hnd hidxnd hval)
  · intro e he
    rcases List.mem_filterMap.mp he with ⟨k, hk, hek⟩
    rw [wordMapFind_word hek]
    exact filterMap_get?_subset sent idxs k hk
  · calc ((idxs.filterMap fun i => sent.get? i).filterMap fun k => wordMapFind words k).length
        = (((idxs.filterMap fun i => sent.get? i).filterMap fun k =>
            wordMapFind words k).map fun e => e.word).length := (List.length_map _ _).symm
      _ = ((idxs.filterMap fun i => sent.get? i).filter fun k =>
            (wordMapFind words k).isSome).length := by rw [map_word_filterMap_wordMapFind]
      _ ≤ (idxs.filterMap fun i => sent.get? i).length := List.length_filter_le _ _
      _ = recapCount count sent.length := hsamlen
      _ = min count sent.length := recapCount_eq_min _ _
  · intro hsub
    have hall : ∀ k ∈ idxs.filterMap fun i => sent.get? i,
        ((wordMapFind words k).isSome) = true := fun k hk =>
      (wordMapFind_isSome_iff words k).mpr (hsub k (filterMap_get?_subset sent idxs k hk))
    have hfil : ((idxs.filterMap fun i => sent.get? i).filter fun k =>
        (wordMapFind words k).isSome) = idxs.filterMap fun i => sent.get? i :=
      List.filter_eq_self.mpr hall
    calc ((idxs.filterMap fun i => sent.get? i).filterMap fun k => wordMapFind words k).length
        = (((idxs.filterMap fun i => sent.get? i).filterMap fun k =>
            wordMapFind words k).map fun e => e.word).length := (List.length_map _ _).symm
      _ = ((idxs.filterMap fun i => sent.get? i).filter fun k =>
            (wordMapFind words k).isSome).length := by rw [map_word_filterMap_wordMapFind]
      _ = (idxs.filterMap fun i => sent.get? i).length := by rw [hfil]
      _ = min count sent.length := by rw [hsamlen, recapCount_eq_min]

/-- C8 (counterexample): user "u" has learnt exactly one word, `"ghost"`,
which is no longer a corpus key; recap with `k = 1` and the only possible
sample returns 0 words, not `min k |sentWords| = 1`. -/
theorem c8_counterexample :
    (getUserProgress ⟨[⟨"a", "", "", "", ""⟩], ⟨⟨[], ""⟩, [("u", ⟨["ghost"], ""⟩)]⟩, none⟩
      "u").1.sentWords.length = 1 ∧
    IsSample [0] 1 (recapCount 1 1) ∧
    (selectRecapWords ⟨[⟨"a", "", "", "", ""⟩], ⟨⟨[], ""⟩, [("u", ⟨["ghost"], ""⟩)]⟩, none⟩
      "u" 1 [0]).1.length = 0 ∧
    (0 : Nat) ≠ min 1 1 := by
  refine ⟨rfl, ⟨by decide, by decide, by decide⟩, rfl, by decide⟩

/-- C8 (amended): with a duplicate-free history and a valid
`random.sample` outcome, recap returns pairwise-distinct words all drawn
from the user's `sent_words`, at most `min k |sentWords|` of them, with
equality whenever every sent word is still a corpus key (stale keys are
silently dropped, so the result can be shorter); no history yields the
empty sequence. -/
theorem c8_select_recap (st : PMState) (u : String) (count : Nat) (idxs : List Nat)
    (hnd : (getUserProgress st u).1.sentWords.Nodup)
    (hs : IsSample idxs (getUserProgress st u).1.sentWords.length
      (recapCount count (getUserProgress st u).1.sentWords.length)) :
    ((selectRecapWords st u count idxs).1.map fun e => e.word).Nodup ∧
    (∀ e ∈ (selectRecapWords st u count idxs).1,
      e.word ∈ (getUserProgress st u).1.sentWords) ∧
    (selectRecapWords st u count idxs).1.length ≤
      min count (getUserProgress st u).1.sentWords.length ∧
    ((∀ x ∈ (getUserProgress st u).1.sentWords, x ∈ wordKeys st.words) →
      (selectRecapWords st u count idxs).1.length =
        min count (getUserProgress st u).1.sentWords.length) ∧
    ((getUserProgress st u).1.sentWords = [] → (selectRecapWords st u count idxs).1 = []) := by
  obtain ⟨hidxnd, hlen, hval⟩ := hs
  by_cases hempty : (getUserProgress st u).1.sentWords = []
  · have hie : (getUserProgress st u).1.sentWords.isEmpty = true := List.isEmpty_iff.mpr hempty
    rw [selectRecapWords, if_pos hie]
    refine ⟨by simp, by simp, by simp, ?_, fun _ => rfl⟩
    intro _
    simp [hempty]
  · have hcond : ¬ ((getUserProgress st u).1.sentWords.isEmpty = true) :=
      fun hh => hempty (List.isEmpty_iff.mp hh)
    have hfst : (selectRecapWords st u count idxs).1 =
        ((idxs.take (recapCount count (getUserProgress st u).1.sentWords.length)).filterMap
          fun i => (getUserProgress st u).1.sentWords.get? i).filterMap
            fun k => wordMapFind st.words k := by
      rw [selectRecapWords, if_neg hcond, getUserProgress_words]
    rw [hfst]
    have hcore := recap_core st.words (getUserProgress st u).1.sentWords count idxs hnd
      hidxnd hlen hval
    exact ⟨hcore.1, hcore.2.1, hcore.2.2.1, hcore.2.2.2, fun h => absurd h hempty⟩

/-- C8 (witness): one fresh word in the history, a valid one-element
sample, and a corpus still containing it. -/
theorem c8_select_recap_witness :
    ((selectRecapWords ⟨[⟨"a", "", "", "", ""⟩], ⟨⟨[], ""⟩, [("u", ⟨["a"], ""⟩)]⟩, none⟩
        "u" 1 [0]).1.map fun e => e.word).Nodup ∧
    (∀ e ∈ (selectRecapWords ⟨[⟨"a", "", "", "", ""⟩], ⟨⟨[], ""⟩, [("u", ⟨["a"], ""⟩)]⟩, none⟩
        "u" 1 [0]).1,
      e.word ∈ (getUserProgress ⟨[⟨"a", "", "", "", ""⟩], ⟨⟨[], ""⟩, [("u", ⟨["a"], ""⟩)]⟩, none⟩
        "u").1.sentWords) ∧
    (selectRecapWords ⟨[⟨"a", "", "", "", ""⟩], ⟨⟨[], ""⟩, [("u", ⟨["a"], ""⟩)]⟩, none⟩
        "u" 1 [0]).1.length ≤
      min 1 (getUserProgress ⟨[⟨"a", "", "", "", ""⟩], ⟨⟨[], ""⟩, [("u", ⟨["a"], ""⟩)]⟩, none⟩
        "u").1.sentWords.length ∧
    ((∀ x ∈ (getUserProgress ⟨[⟨"a", "", "", "", ""⟩], ⟨⟨[], ""⟩, [("u", ⟨["a"], ""⟩)]⟩, none⟩
        "u").1.sentWords,
        x ∈ wordKeys [⟨"a", "", "", "", ""⟩]) →
      (selectRecapWords ⟨[⟨"a", "", "", "", ""⟩], ⟨⟨[], ""⟩, [("u", ⟨["a"], ""⟩)]⟩, none⟩
          "u" 1 [0]).1.length =
        min 1 (getUserProgress ⟨[⟨"a", "", "", "", ""⟩], ⟨⟨[], ""⟩, [("u", ⟨["a"], ""⟩)]⟩, none⟩
          "u").1.sentWords.length) ∧
    ((getUserProgress ⟨[⟨"a", "", "", "", ""⟩], ⟨⟨[], ""⟩, [("u", ⟨["a"], ""⟩)]⟩, none⟩
        "u").1.sentWords = [] →
      (selectRecapWords ⟨[⟨"a", "", "", "", ""⟩], ⟨⟨[], ""⟩, [("u", ⟨["a"], ""⟩)]⟩, none⟩
        "u" 1 [0]).1 = []) :=
  c8_select_recap ⟨[⟨"a", "", "", "", ""⟩], ⟨⟨[], ""⟩, [("u", ⟨["a"], ""⟩)]⟩, none⟩
    "u" 1 [0] (by decide) ⟨by decide, by decide, by decide⟩

theorem vocabLoop_succ (tl : Option String) (mode : String) (n : Nat) (picks : List Nat)
    (st : PMState) (acc : List WordEntry) :
    vocabLoop tl mode (n + 1) picks st acc =
      match (selectWord st tl mode (picks.headD 0)).1 with
      | some w => vocabLoop tl mode n picks.tail (selectWord st tl mode (picks.headD 0)).2
          (if w ∈ acc then acc else acc ++ [w])
      | none => (acc, (selectWord st tl mode (picks.headD 0)).2) := rfl

theorem vocabLoop_length_le (tl : Option String) (mode : String) :
    ∀ (n : Nat) (picks : List Nat) (st : PMState) (acc : List WordEntry),
      (vocabLoop tl mode n picks st acc).1.length ≤ acc.length + n := by
  intro n
  induction n with
  | zero =>
    intro picks st acc
    simp [vocabLoop]
  | succ n ih =>
    intro picks st acc
    rw [vocabLoop_succ]
    cases h : (selectWord st tl mode (picks.headD 0)).1 with
    | none => simp
    | some w =>
      simp only []
      have hstep := ih picks.tail (selectWord st tl mode (picks.headD 0)).2
        (if w ∈ acc then acc else acc ++ [w])
      have hacc : (if w ∈ acc then acc else acc ++ [w]).length ≤ acc.length + 1 := by
        by_cases hw : w ∈ acc <;> simp [hw]
      omega

theorem selectRecapWords_length_le (st : PMState) (u : String) (count : Nat)
    (idxs : List Nat) : (selectRecapWords st u count idxs).1.length ≤ count := by
  rw [selectRecapWords]
  by_cases h : (getUserProgress st u).1.sentWords.isEmpty = true
  · rw [if_pos h]
    simp
  · rw [if_neg h]
    calc (((idxs.take (recapCount count (getUserProgress st u).1.sentWords.length)).filterMap
          fun i => (getUserProgress st u).1.sentWords.get? i).filterMap
            fun k => wordMapFind (getUserProgress st u).2.words k).length
        ≤ ((idxs.take (recapCount count (getUserProgress st u).1.sentWords.length)).filterMap
            fun i => (getUserProgress st u).1.sentWords.get? i).length :=
          List.length_filterMap_le _ _
      _ ≤ (idxs.take (recapCount count (getUserProgress st u).1.sentWords.length)).length :=
          List.length_filterMap_le _ _
      _ ≤ recapCount count (getUserProgress st u).1.sentWords.length := by
          rw [List.length_take]
          exact Nat.min_le_left _ _
      _ ≤ count := by
          rw [recapCount_eq_min]
          exact Nat.min_le_left _ _

/-- C10: the `/vocab` and `/vocab_recap` count argument is parsed with
`int(...)`, any failure is treated as 1, and the result is clamped into
1..10; consequently one invocation's word-collection loop never gathers
(hence never marks) more than 10 words, and one recap never returns
more than 10 words. -/
theorem c10_count_clamp (s : String) :
    1 ≤ effectiveCount s ∧ effectiveCount s ≤ 10 ∧
    (pyInt s = none → effectiveCount s = 1) ∧
    (∀ tl mode picks st,
      (vocabLoop tl mode (effectiveCount s).toNat picks st []).1.length ≤ 10) ∧
    (∀ st u idxs, (selectRecapWords st u (effectiveCount s).toNat idxs).1.length ≤ 10) := by
  have h2 : effectiveCount s ≤ 10 := by
    rw [effectiveCount]
    exact max_le (by norm_num) (min_le_right _ 10)
  have h10 : (effectiveCount s).toNat ≤ 10 := by omega
  refine ⟨le_max_left 1 _, h2, ?_, ?_, ?_⟩
  · intro h
    simp [effectiveCount, h]
  · intro tl mode picks st
    have hlen := vocabLoop_length_le tl mode (effectiveCount s).toNat picks st []
    simp only [List.length_nil, Nat.zero_add] at hlen
    exact le_trans hlen h10
  · intro st u idxs
    exact le_trans (selectRecapWords_length_le st u _ idxs) h10

/-- C10 (witness): a non-numeric argument is treated as a count of 1. -/
theorem c10_count_clamp_witness : effectiveCount "abc" = 1 :=
  (c10_count_clamp "abc").2.2.1 (by decide)

end VocabCard
